import Mathlib

/-!
Verification of the Mandelbrot progressive renderer's core: the coordinate
transform (`View`), the escape-time evaluator (`mandelbrot`), the hue ramp
(`hueToRGB`), the pixel render pass (`render`), and the zoom-box interaction.

The C++ `Real` type (native `double`, or the swappable arbitrary-precision
backend) is idealised as `ℝ`; machine `int`/`long` are `ℤ`.  C++
`static_cast` of a floating value to an integer type truncates toward zero,
modelled by `truncR`; C++ integer division also truncates toward zero,
modelled by `Int.tdiv`.  Pixel buffers are byte-indexed maps `ℕ → ℕ`.
-/

/-- Truncation toward zero of a real number, the semantics of C++
`static_cast<int>` / `static_cast<long>` on a floating value. -/
noncomputable def truncR (r : ℝ) : ℤ := if r < 0 then ⌈r⌉ else ⌊r⌋

/-- `sf::Rect<Real>`: left, top, width, height. -/
structure ComplexRect where
  left : ℝ
  top : ℝ
  width : ℝ
  height : ℝ

/-- The `View` class state (View.hpp): navigation state plus the transient
zoom-box selection.  The `sf::RectangleShape` is modelled by its position and
size only (fill/outline colours are presentation-only constants). -/
structure View where
  m_dirty : Bool
  m_scale : ℝ
  m_zoom : ℝ
  m_centre : ℝ × ℝ
  m_rect : ComplexRect
  m_screenSize : ℤ × ℤ
  m_aspectRatio : ℝ
  m_zoomBoxIsShown : Bool
  m_zoomBoxStartCorner : ℤ × ℤ
  m_zoomBoxEndCorner : ℤ × ℤ
  m_zoomBoxShapePos : ℝ × ℝ
  m_zoomBoxShapeSize : ℝ × ℝ

/-- Read accessor `View::isDirty()`. -/
def View.isDirty (v : View) : Bool := v.m_dirty

/-- Setter `View::isDirty(bool d)`. -/
def View.setDirty (v : View) (d : Bool) : View := { v with m_dirty := d }

/-- Read accessor `View::getScale()`. -/
def View.getScale (v : View) : ℝ := v.m_scale

/-- Read accessor `View::getZoom()`. -/
def View.getZoom (v : View) : ℝ := v.m_zoom

/-- Read accessor `View::getCentre()`. -/
def View.getCentre (v : View) : ℝ × ℝ := v.m_centre

/-- Read accessor `View::getViewport()`. -/
def View.getViewport (v : View) : ComplexRect := v.m_rect

/-- Read accessor `View::getZoomBoxIsShown()`. -/
def View.getZoomBoxIsShown (v : View) : Bool := v.m_zoomBoxIsShown

/-- `View::updateViewport()`:
`scaleVector = (scale * aspectRatio, scale)`;
`rect = ComplexRect(centre - scaleVector, scaleVector)`, i.e. the position is
`centre - scaleVector` and the size is `scaleVector` itself. -/
def View.updateViewport (v : View) : View :=
  { v with m_rect := { left := v.m_centre.1 - v.m_scale * v.m_aspectRatio
                     , top := v.m_centre.2 - v.m_scale
                     , width := v.m_scale * v.m_aspectRatio
                     , height := v.m_scale } }

/-- `View::moveTo(Real x, Real y)`. -/
def View.moveTo (v : View) (x y : ℝ) : View :=
  ({ v with m_centre := (x, y), m_dirty := true }).updateViewport

/-- `View::moveBy(Real dx, Real dy)`: the offset is scaled by the current
scale before translating the centre. -/
def View.moveBy (v : View) (dx dy : ℝ) : View :=
  ({ v with m_centre := (v.m_centre.1 + dx * v.m_scale,
                         v.m_centre.2 + dy * v.m_scale),
            m_dirty := true }).updateViewport

/-- `View::zoomTo(Real z)`: `zoom = z`, `scale = pow(2, zoom)`. -/
noncomputable def View.zoomTo (v : View) (z : ℝ) : View :=
  ({ v with m_zoom := z, m_scale := (2 : ℝ) ^ z, m_dirty := true }).updateViewport

/-- `View::zoomBy(Real dz)`: `zoom += dz`, then
`scale = 1 / pow(TWO, static_cast<long>(-zoom))` — the exponent is the
truncation of `-zoom` to an integer. -/
noncomputable def View.zoomBy (v : View) (dz : ℝ) : View :=
  ({ v with m_zoom := v.m_zoom + dz,
            m_scale := 1 / (2 : ℝ) ^ (truncR (-(v.m_zoom + dz))),
            m_dirty := true }).updateViewport

/-- `View::setScale(Real s)`: `scale = s`, `zoom = log2(scale)`. -/
noncomputable def View.setScale (v : View) (s : ℝ) : View :=
  ({ v with m_scale := s, m_zoom := Real.logb 2 s, m_dirty := true }).updateViewport

/-- `View::setViewport(ComplexRect r)`: stores `r` as-is and back-derives
`scale = r.height / 2`, `zoom = log2(scale)`,
`centre = (r.left + r.width / 2, r.top + r.height / 2)`.
It does not call `updateViewport`. -/
noncomputable def View.setViewport (v : View) (r : ComplexRect) : View :=
  { v with m_rect := r
         , m_scale := (1 / 2 : ℝ) * r.height
         , m_zoom := Real.logb 2 ((1 / 2 : ℝ) * r.height)
         , m_centre := (r.left + (1 / 2 : ℝ) * r.width, r.top + (1 / 2 : ℝ) * r.height)
         , m_dirty := true }

/-- `View::resizeScreen(int w, int h)`: `scale *= h / screenSize.y`, then the
screen size and aspect ratio are replaced; `zoom` is not touched. -/
noncomputable def View.resizeScreen (v : View) (w h : ℤ) : View :=
  ({ v with m_scale := v.m_scale * ((h : ℝ) / (v.m_screenSize.2 : ℝ)),
            m_screenSize := (w, h),
            m_aspectRatio := (w : ℝ) / (h : ℝ),
            m_dirty := true }).updateViewport

/-- `View::complexAtPixel(int x, int y)`. -/
noncomputable def View.complexAtPixel (v : View) (x y : ℤ) : ℝ × ℝ :=
  (v.m_centre.1 + (v.m_scale / (v.m_screenSize.2 : ℝ)) * ((2 * x - v.m_screenSize.1 : ℤ) : ℝ),
   v.m_centre.2 + (v.m_scale / (v.m_screenSize.2 : ℝ)) * ((2 * y - v.m_screenSize.2 : ℤ) : ℝ))

/-- `View::pixelAtComplex(Real x, Real y)`: the result components are cast to
`int`, truncating toward zero. -/
noncomputable def View.pixelAtComplex (v : View) (x y : ℝ) : ℤ × ℤ :=
  (truncR ((1 / 2 : ℝ) * ((x - v.m_centre.1) * ((v.m_screenSize.2 : ℝ) / v.m_scale) + (v.m_screenSize.1 : ℝ))),
   truncR ((1 / 2 : ℝ) * ((y - v.m_centre.2) * ((v.m_screenSize.2 : ℝ) / v.m_scale) + (v.m_screenSize.2 : ℝ))))

/-- `View::zoomBoxBegin(int x, int y)`. -/
def View.zoomBoxBegin (v : View) (x y : ℤ) : View :=
  { v with m_zoomBoxIsShown := true, m_zoomBoxStartCorner := (x, y) }

/-- The width/height pair computed inside `View::zoomBoxContinue`:
`w = x - start.x`, `h = y - start.y` (as floats), then whichever dimension
violates the aspect ratio is rescaled from the other, keeping its sign
(`signbit(v) ? -1 : 1`, which is `+1` at zero). -/
noncomputable def View.zoomBoxDims (v : View) (x y : ℤ) : ℝ × ℝ :=
  let w : ℝ := ((x - v.m_zoomBoxStartCorner.1 : ℤ) : ℝ)
  let h : ℝ := ((y - v.m_zoomBoxStartCorner.2 : ℤ) : ℝ)
  if v.m_aspectRatio * |h| > |w| then
    (|h| * v.m_aspectRatio * (if w < 0 then -1 else 1), h)
  else
    (w, |w| / v.m_aspectRatio * (if h < 0 then -1 else 1))

/-- `View::zoomBoxContinue(int x, int y)`: only acts when the box is shown;
stores `start + (int(w), int(h))` as the end corner and sets the shape to
position `(min start.x end.x, min start.y end.y)` and size `(|w|, |h|)`. -/
noncomputable def View.zoomBoxContinue (v : View) (x y : ℤ) : View :=
  if v.m_zoomBoxIsShown then
    let d := v.zoomBoxDims x y
    let e : ℤ × ℤ := (v.m_zoomBoxStartCorner.1 + truncR d.1,
                      v.m_zoomBoxStartCorner.2 + truncR d.2)
    { v with m_zoomBoxEndCorner := e
           , m_zoomBoxShapePos := (min (v.m_zoomBoxStartCorner.1 : ℝ) (e.1 : ℝ),
                                   min (v.m_zoomBoxStartCorner.2 : ℝ) (e.2 : ℝ))
           , m_zoomBoxShapeSize := (|d.1|, |d.2|) }
  else v

/-- `View::zoomBoxEnd(int x, int y)`: finishes via `zoomBoxContinue`; when
the (integer) box height is nonzero, moves to the complex number at the box
midpoint (integer midpoint, truncating division) and rescales by
`scale * h / screenSize.y`; always hides the box and zeroes the shape size. -/
noncomputable def View.zoomBoxEnd (v : View) (x y : ℤ) : View :=
  let v1 := v.zoomBoxContinue x y
  let h : ℝ := |((v1.m_zoomBoxEndCorner.2 - v1.m_zoomBoxStartCorner.2 : ℤ) : ℝ)|
  let v2 :=
    if h > 0 then
      let mid : ℤ × ℤ := (Int.tdiv (v1.m_zoomBoxStartCorner.1 + v1.m_zoomBoxEndCorner.1) 2,
                          Int.tdiv (v1.m_zoomBoxStartCorner.2 + v1.m_zoomBoxEndCorner.2) 2)
      let z := v1.complexAtPixel mid.1 mid.2
      let vm := v1.moveTo z.1 z.2
      vm.setScale (vm.m_scale * h / (vm.m_screenSize.2 : ℝ))
    else v1
  { v2 with m_zoomBoxIsShown := false, m_zoomBoxShapeSize := (0, 0) }

/-- `View::zoomBoxCancel()`. -/
def View.zoomBoxCancel (v : View) : View := { v with m_zoomBoxIsShown := false }

/-- The `View` constructor: in-class initialisers give
`dirty = true`, `scale = 2`, `zoom = 1`, everything else zero, then the body
sets the screen size and aspect ratio and calls `moveTo` and `zoomTo`. -/
noncomputable def View.init (x y zoom : ℝ) (screenWidth screenHeight : ℤ) : View :=
  (({ m_dirty := true
    , m_scale := 2
    , m_zoom := 1
    , m_centre := (0, 0)
    , m_rect := { left := 0, top := 0, width := 0, height := 0 }
    , m_screenSize := (screenWidth, screenHeight)
    , m_aspectRatio := (screenWidth : ℝ) / (screenHeight : ℝ)
    , m_zoomBoxIsShown := false
    , m_zoomBoxStartCorner := (0, 0)
    , m_zoomBoxEndCorner := (0, 0)
    , m_zoomBoxShapePos := (0, 0)
    , m_zoomBoxShapeSize := (0, 0) } : View).moveTo x y).zoomTo zoom

/-- `MAX_ITERATIONS` as computed at the top of `MandelbrotRenderer::mandelbrot`:
`120 - (10 * static_cast<int>(view.getZoom()))`.  There is no clamp. -/
noncomputable def maxIterations (zoom : ℝ) : ℤ := 120 - 10 * truncR zoom

/-- One Mandelbrot iteration `z := z^2 + z0`, componentwise:
`(z.x*z.x - z.y*z.y + z0.x, 2*z.x*z.y + z0.y)`. -/
def mandelStep (z0 z : ℝ × ℝ) : ℝ × ℝ :=
  (z.1 * z.1 - z.2 * z.2 + z0.1, 2 * z.1 * z.2 + z0.2)

/-- The `for (n = 0; n < MAX_ITERATIONS; n++)` loop of
`MandelbrotRenderer::mandelbrot`: step `z`, then if `|z|^2 > 16` return
`n / MAX_ITERATIONS`; when the budget is exhausted return `1.0`.
`fuel` counts the remaining iterations (`MAX_ITERATIONS - n`). -/
noncomputable def mandelLoop (z0 : ℝ × ℝ) (maxIter : ℤ) : ℝ × ℝ → ℤ → ℕ → ℝ
  | _, _, 0 => 1
  | z, n, fuel + 1 =>
    let z' := mandelStep z0 z
    if z'.1 * z'.1 + z'.2 * z'.2 > 16 then (n : ℝ) / (maxIter : ℝ)
    else mandelLoop z0 maxIter z' (n + 1) fuel

/-- `MandelbrotRenderer::mandelbrot(Complex z0)`: iteration budget
`120 - 10 * (int)view.getZoom()`, escape threshold `16.0`. -/
noncomputable def mandelbrot (v : View) (z0 : ℝ × ℝ) : ℝ :=
  mandelLoop z0 (maxIterations v.getZoom) z0 0 (maxIterations v.getZoom).toNat

/-- The orbit of `z0` under `z := z^2 + z0` starting at `z0` (iterate 0 is
`z0` itself, matching `Complex z(z0)` before the loop). -/
def mandelOrbit (z0 : ℝ × ℝ) (k : ℕ) : ℝ × ℝ := (mandelStep z0)^[k] z0

/-- An RGB colour; `sf::Color`'s alpha is not modelled because the pixel
loop overwrites the alpha byte with `0xFF` unconditionally. -/
structure Color where
  r : ℕ
  g : ℕ
  b : ℕ

/-- C `fmod(a, b) = a - trunc(a/b) * b`. -/
noncomputable def fmodR (a b : ℝ) : ℝ := a - (truncR (a / b) : ℝ) * b

/-- The byte `x = (sf::Uint8)(0xFF * (1 - abs(fmod(h / 60.0, 2) - 1.0)))`
of `hueToRGB`. -/
noncomputable def hueByte (h : ℝ) : ℕ :=
  (truncR (255 * (1 - |fmodR (h / 60) 2 - 1|))).toNat

/-- `hueToRGB(double h)` (MandelbrotRenderer.cpp): switches on
`static_cast<int>(h) / 60` (truncating int division); the default case is
`sf::Color()`, i.e. black. -/
noncomputable def hueToRGB (h : ℝ) : Color :=
  let x := hueByte h
  let k := Int.tdiv (truncR h) 60
  if k = 0 then ⟨0xFF, x, 0⟩
  else if k = 1 then ⟨x, 0xFF, 0⟩
  else if k = 2 then ⟨0, 0xFF, x⟩
  else if k = 3 then ⟨0, x, 0xFF⟩
  else if k = 4 then ⟨x, 0, 0xFF⟩
  else if k = 5 then ⟨0xFF, 0, x⟩
  else ⟨0, 0, 0⟩

/-- The colour computed for one pixel of `MandelbrotRenderer::render`:
`sf::Color c;` (default black) unless `m < 1`, in which case
`hueToRGB(360 * m)`. -/
noncomputable def renderColor (v : View) (x y : ℤ) : Color :=
  let z := v.complexAtPixel x y
  let m := mandelbrot v z
  if m < 1 then hueToRGB (360 * m) else ⟨0, 0, 0⟩

/-- The four byte stores of the inner loop of `MandelbrotRenderer::render`:
`currentPixel = pixels + 4 * (y * width + x)`, then
`currentPixel[0..2] = c.r, c.g, c.b` and `currentPixel[3] = 0xFF`. -/
noncomputable def writePixel (v : View) (width : ℕ) (x y : ℕ) (buf : ℕ → ℕ) : ℕ → ℕ :=
  let c := renderColor v x y
  let base := 4 * (y * width + x)
  Function.update (Function.update (Function.update (Function.update
    buf base c.r) (base + 1) c.g) (base + 2) c.b) (base + 3) 0xFF

/-- The inner `for (x = 0; x < width; ++x)` loop of a row. -/
noncomputable def renderRow (v : View) (width : ℕ) (y : ℕ) (buf : ℕ → ℕ) : ℕ → ℕ :=
  (List.range width).foldl (fun b x => writePixel v width x y b) buf

/-- An uncancelled (completed) pass of `MandelbrotRenderer::render`: the
outer `for (y = 0; y < height; ++y)` loop with `m_cancelling` never set, so
the early `break` is never taken and every row is rendered. -/
noncomputable def render (v : View) (width height : ℕ) (buf : ℕ → ℕ) : ℕ → ℕ :=
  (List.range height).foldl (fun b y => renderRow v width y b) buf

/-- Modelled from the spec (§4.4): the colour the render contract demands,
`hueRamp(360 * escape(z))`, "with `escape == 1.0` mapped to opaque black".
Used only to compare the code's `renderColor` against the spec's words. -/
noncomputable def specPixelColor (v : View) (x y : ℤ) : Color :=
  let m := mandelbrot v (v.complexAtPixel x y)
  if m = 1 then ⟨0, 0, 0⟩ else hueToRGB (360 * m)

/-- A concrete consistent view used by witnesses and counterexamples:
centre (-1/2, 0), zoom 1, scale 2, screen 800x600. -/
noncomputable def v0 : View :=
  { m_dirty := false
  , m_scale := 2
  , m_zoom := 1
  , m_centre := (-(1 / 2), 0)
  , m_rect := { left := -(1 / 2) - 2 * (4 / 3), top := -2, width := 2 * (4 / 3), height := 2 }
  , m_screenSize := (800, 600)
  , m_aspectRatio := 4 / 3
  , m_zoomBoxIsShown := false
  , m_zoomBoxStartCorner := (0, 0)
  , m_zoomBoxEndCorner := (0, 0)
  , m_zoomBoxShapePos := (0, 0)
  , m_zoomBoxShapeSize := (0, 0) }

/-- `v0` with an active zoom box started at (100, 100). -/
noncomputable def v0box : View := v0.zoomBoxBegin 100 100

/-- `truncR` is the identity on integers. -/
theorem truncR_intCast (n : ℤ) : truncR (n : ℝ) = n := by
  unfold truncR
  split <;> simp

/-- C1: for every View state with positive screen dimensions and positive
scale, and every pixel coordinate (x, y) within the screen bounds,
`pixelAtComplex (complexAtPixel (x, y))` equals `(x, y)` to within 1-pixel
rounding error (in the idealised exact arithmetic the round trip is exact,
so the error is 0). -/
theorem C1_pixel_roundtrip (v : View) (x y : ℤ)
    (hW : 0 < v.m_screenSize.1) (hH : 0 < v.m_screenSize.2) (hs : 0 < v.m_scale)
    (hx0 : 0 ≤ x) (hx : x < v.m_screenSize.1) (hy0 : 0 ≤ y) (hy : y < v.m_screenSize.2) :
    |(v.pixelAtComplex (v.complexAtPixel x y).1 (v.complexAtPixel x y).2).1 - x| ≤ 1 ∧
    |(v.pixelAtComplex (v.complexAtPixel x y).1 (v.complexAtPixel x y).2).2 - y| ≤ 1 := by
  have hHne : ((v.m_screenSize.2 : ℝ)) ≠ 0 := by
    exact_mod_cast (ne_of_gt (by exact_mod_cast hH : (0 : ℝ) < (v.m_screenSize.2 : ℝ)))
  have hsne : v.m_scale ≠ 0 := ne_of_gt hs
  have h1 : (v.pixelAtComplex (v.complexAtPixel x y).1 (v.complexAtPixel x y).2).1 = x := by
    have harg : (1 / 2 : ℝ) * (((v.m_centre.1 + (v.m_scale / (v.m_screenSize.2 : ℝ)) *
        ((2 * x - v.m_screenSize.1 : ℤ) : ℝ)) - v.m_centre.1) *
        ((v.m_screenSize.2 : ℝ) / v.m_scale) + (v.m_screenSize.1 : ℝ)) = ((x : ℤ) : ℝ) := by
      push_cast
      field_simp
      ring
    simp only [View.pixelAtComplex, View.complexAtPixel]
    rw [harg, truncR_intCast]
  have h2 : (v.pixelAtComplex (v.complexAtPixel x y).1 (v.complexAtPixel x y).2).2 = y := by
    have harg : (1 / 2 : ℝ) * (((v.m_centre.2 + (v.m_scale / (v.m_screenSize.2 : ℝ)) *
        ((2 * y - v.m_screenSize.2 : ℤ) : ℝ)) - v.m_centre.2) *
        ((v.m_screenSize.2 : ℝ) / v.m_scale) + (v.m_screenSize.2 : ℝ)) = ((y : ℤ) : ℝ) := by
      push_cast
      field_simp
      ring
    simp only [View.pixelAtComplex, View.complexAtPixel]
    rw [harg, truncR_intCast]
  rw [h1, h2]
  simp

/-- C1 witness: the round trip at pixel (123, 45) of the initial
800x600 view (centre (-1/2, 0), zoom 1, scale 2). -/
theorem C1_pixel_roundtrip_witness :
    ∃ v : View, 0 < v.m_screenSize.1 ∧ 0 < v.m_screenSize.2 ∧ 0 < v.m_scale ∧
      |(v.pixelAtComplex (v.complexAtPixel 123 45).1 (v.complexAtPixel 123 45).2).1 - 123| ≤ 1 ∧
      |(v.pixelAtComplex (v.complexAtPixel 123 45).1 (v.complexAtPixel 123 45).2).2 - 45| ≤ 1 := by
  refine ⟨{ m_dirty := true, m_scale := 2, m_zoom := 1, m_centre := (-(1 / 2), 0)
          , m_rect := { left := 0, top := 0, width := 0, height := 0 }
          , m_screenSize := (800, 600), m_aspectRatio := 4 / 3
          , m_zoomBoxIsShown := false, m_zoomBoxStartCorner := (0, 0)
          , m_zoomBoxEndCorner := (0, 0), m_zoomBoxShapePos := (0, 0)
          , m_zoomBoxShapeSize := (0, 0) }, by norm_num, by norm_num, by norm_num, ?_⟩
  exact C1_pixel_roundtrip _ 123 45 (by norm_num) (by norm_num) (by norm_num)
    (by norm_num) (by norm_num) (by norm_num) (by norm_num)

/-- `zoomBoxContinue` never changes the scale. -/
theorem zoomBoxContinue_m_scale (v : View) (x y : ℤ) :
    (v.zoomBoxContinue x y).m_scale = v.m_scale := by
  unfold View.zoomBoxContinue
  split <;> rfl

/-- `zoomBoxContinue` never changes the zoom. -/
theorem zoomBoxContinue_m_zoom (v : View) (x y : ℤ) :
    (v.zoomBoxContinue x y).m_zoom = v.m_zoom := by
  unfold View.zoomBoxContinue
  split <;> rfl

/-- `zoomBoxContinue` never changes the centre. -/
theorem zoomBoxContinue_m_centre (v : View) (x y : ℤ) :
    (v.zoomBoxContinue x y).m_centre = v.m_centre := by
  unfold View.zoomBoxContinue
  split <;> rfl

/-- `zoomBoxContinue` never changes the viewport rectangle. -/
theorem zoomBoxContinue_m_rect (v : View) (x y : ℤ) :
    (v.zoomBoxContinue x y).m_rect = v.m_rect := by
  unfold View.zoomBoxContinue
  split <;> rfl

/-- `zoomBoxContinue` never changes the dirty flag. -/
theorem zoomBoxContinue_m_dirty (v : View) (x y : ℤ) :
    (v.zoomBoxContinue x y).m_dirty = v.m_dirty := by
  unfold View.zoomBoxContinue
  split <;> rfl

/-- `zoomBoxContinue` never changes the screen size. -/
theorem zoomBoxContinue_m_screenSize (v : View) (x y : ℤ) :
    (v.zoomBoxContinue x y).m_screenSize = v.m_screenSize := by
  unfold View.zoomBoxContinue
  split <;> rfl

/-- `zoomBoxContinue` never changes the start corner. -/
theorem zoomBoxContinue_m_start (v : View) (x y : ℤ) :
    (v.zoomBoxContinue x y).m_zoomBoxStartCorner = v.m_zoomBoxStartCorner := by
  unfold View.zoomBoxContinue
  split <;> rfl

/-- The scale `zoomBoxEnd` leaves behind is positive whenever the previous
scale and the screen height are. -/
theorem zoomBoxEnd_scale_pos (v : View) (hs : 0 < v.m_scale) (hH : 0 < v.m_screenSize.2)
    (x y : ℤ) : 0 < (v.zoomBoxEnd x y).m_scale := by
  unfold View.zoomBoxEnd
  simp only
  split
  · rename_i hpos
    simp only [View.setScale, View.updateViewport, View.moveTo]
    have h1 : (v.zoomBoxContinue x y).m_scale = v.m_scale := zoomBoxContinue_m_scale v x y
    have h2 : (v.zoomBoxContinue x y).m_screenSize = v.m_screenSize :=
      zoomBoxContinue_m_screenSize v x y
    rw [h1, h2]
    have hHpos : (0 : ℝ) < (v.m_screenSize.2 : ℝ) := by exact_mod_cast hH
    exact div_pos (mul_pos hs hpos) hHpos
  · rw [zoomBoxContinue_m_scale]
    exact hs

/-- C2 counterexample: `setScale(-1)` on a view with positive scale leaves a
negative scale, so not every mutator preserves `scale > 0`. -/
theorem C2_counterexample :
    0 < v0.m_scale ∧ ¬ 0 < (v0.setScale (-1)).m_scale := by
  constructor
  · norm_num [v0]
  · simp [View.setScale, View.updateViewport]

/-- C2 (amended): `moveTo`, `moveBy`, `zoomTo` and `zoomBy` preserve
`scale > 0` for every argument; `resizeScreen` preserves it when the new
height is positive; `zoomBoxEnd` preserves it when the screen height is
positive; but `setScale(s)` simply stores `s` and `setViewport(r)` stores
`r.height / 2`, so those two preserve positivity only for positive
arguments. -/
theorem C2_scale_positive_amended (v : View) (hs : 0 < v.m_scale)
    (hH : 0 < v.m_screenSize.2) :
    (∀ x y : ℝ, 0 < (v.moveTo x y).m_scale) ∧
    (∀ dx dy : ℝ, 0 < (v.moveBy dx dy).m_scale) ∧
    (∀ z : ℝ, 0 < (v.zoomTo z).m_scale) ∧
    (∀ dz : ℝ, 0 < (v.zoomBy dz).m_scale) ∧
    (∀ w h : ℤ, 0 < h → 0 < (v.resizeScreen w h).m_scale) ∧
    (∀ x y : ℤ, 0 < (v.zoomBoxEnd x y).m_scale) ∧
    (∀ s : ℝ, (v.setScale s).m_scale = s) ∧
    (∀ r : ComplexRect, (v.setViewport r).m_scale = (1 / 2 : ℝ) * r.height) := by
  refine ⟨fun x y => ?_, fun dx dy => ?_, fun z => ?_, fun dz => ?_,
    fun w h hh => ?_, fun x y => zoomBoxEnd_scale_pos v hs hH x y,
    fun s => rfl, fun r => rfl⟩
  · exact hs
  · exact hs
  · exact Real.rpow_pos_of_pos (by norm_num) z
  · show (0 : ℝ) < 1 / (2 : ℝ) ^ (truncR (-(v.m_zoom + dz)))
    positivity
  · show (0 : ℝ) < v.m_scale * ((h : ℝ) / (v.m_screenSize.2 : ℝ))
    have h1 : (0 : ℝ) < (h : ℝ) := by exact_mod_cast hh
    have h2 : (0 : ℝ) < (v.m_screenSize.2 : ℝ) := by exact_mod_cast hH
    exact mul_pos hs (div_pos h1 h2)

/-- C2 witness: the amended theorem applied to the concrete view `v0`
(scale 2, screen 800x600), at sample arguments. -/
theorem C2_scale_positive_witness :
    0 < (v0.moveTo 3 4).m_scale ∧ 0 < (v0.zoomBy (1 / 2)).m_scale ∧
    0 < (v0.resizeScreen 400 300).m_scale ∧ 0 < (v0.zoomBoxEnd 7 9).m_scale := by
  have h := C2_scale_positive_amended v0 (by norm_num [v0]) (by norm_num [v0])
  exact ⟨h.1 3 4, h.2.2.2.1 (1 / 2), h.2.2.2.2.1 400 300 (by norm_num), h.2.2.2.2.2.1 7 9⟩

/-- C3: demonstration of the viewport-size bug.  For the constructor view
(centre (-1/2, 0), zoom 1, screen 800x600) the stored rectangle has
`height = scale = 2` and `width = scale * aspectRatio`, not the
`2 * scale` / `2 * scale * aspectRatio` the claim (and the code's own
`setViewport` inverse) require; feeding the viewport back through
`setViewport` halves the scale from 2 to 1. -/
theorem C3_viewport_height_bug :
    (View.init (-(1 / 2)) 0 1 800 600).m_scale = 2 ∧
    (View.init (-(1 / 2)) 0 1 800 600).m_rect.height = 2 ∧
    (View.init (-(1 / 2)) 0 1 800 600).m_rect.height ≠
      2 * (View.init (-(1 / 2)) 0 1 800 600).m_scale ∧
    ((View.init (-(1 / 2)) 0 1 800 600).setViewport
      (View.init (-(1 / 2)) 0 1 800 600).m_rect).m_scale = 1 := by
  have hs : (View.init (-(1 / 2)) 0 1 800 600).m_scale = 2 := by
    simp [View.init, View.zoomTo, View.moveTo, View.updateViewport]
  have hh : (View.init (-(1 / 2)) 0 1 800 600).m_rect.height = 2 := by
    simp [View.init, View.zoomTo, View.moveTo, View.updateViewport]
  refine ⟨hs, hh, ?_, ?_⟩
  · rw [hs, hh]
    norm_num
  · show (1 / 2 : ℝ) * (View.init (-(1 / 2)) 0 1 800 600).m_rect.height = 1
    rw [hh]
    norm_num

/-- C4 counterexample: `resizeScreen` rescales the scale by the height ratio
but never touches the zoom, so `scale = 2^zoom` is broken: from the state
(zoom 1, scale 2, 800x600), `resizeScreen(800, 1200)` leaves zoom 1 and
scale 4, and `4 ≠ 2^1`. -/
theorem C4_counterexample :
    (v0.resizeScreen 800 1200).m_zoom = 1 ∧
    (v0.resizeScreen 800 1200).m_scale = 4 ∧
    (v0.resizeScreen 800 1200).m_scale ≠
      (2 : ℝ) ^ ((v0.resizeScreen 800 1200).m_zoom) := by
  have hz : (v0.resizeScreen 800 1200).m_zoom = 1 := by
    simp [v0, View.resizeScreen, View.updateViewport]
  have hsc : (v0.resizeScreen 800 1200).m_scale = 4 := by
    simp [v0, View.resizeScreen, View.updateViewport]
    norm_num
  refine ⟨hz, hsc, ?_⟩
  rw [hz, hsc, Real.rpow_one]
  norm_num

/-- C4 (amended): `zoomBy(dz)` increments the zoom by `dz` and stores
`scale = 1 / 2^(long)(-zoom)`, the exponent truncated toward zero; this
equals `2^zoom` exactly when the new zoom is an integer.  `resizeScreen`
multiplies the scale by the height ratio and leaves the zoom unchanged, so
it does not maintain `scale = 2^zoom`. -/
theorem C4_scale_zoom_amended (v : View) (dz : ℝ) (w h : ℤ) :
    (v.zoomBy dz).m_zoom = v.m_zoom + dz ∧
    (v.zoomBy dz).m_scale = 1 / (2 : ℝ) ^ (truncR (-(v.m_zoom + dz))) ∧
    (∀ n : ℤ, v.m_zoom + dz = (n : ℝ) →
      (v.zoomBy dz).m_scale = (2 : ℝ) ^ ((v.zoomBy dz).m_zoom)) ∧
    (v.resizeScreen w h).m_zoom = v.m_zoom ∧
    (v.resizeScreen w h).m_scale = v.m_scale * ((h : ℝ) / (v.m_screenSize.2 : ℝ)) := by
  refine ⟨rfl, rfl, fun n hn => ?_, rfl, rfl⟩
  show (1 : ℝ) / (2 : ℝ) ^ (truncR (-(v.m_zoom + dz))) = (2 : ℝ) ^ (v.m_zoom + dz)
  rw [hn]
  have ht : truncR (-((n : ℤ) : ℝ)) = -n := by
    rw [show (-((n : ℤ) : ℝ)) = (((-n : ℤ)) : ℝ) by push_cast; ring, truncR_intCast]
  rw [ht, Real.rpow_intCast]
  rw [zpow_neg]
  field_simp

/-- C4 witness: `zoomBy 1` from `v0` (zoom 1) lands on the integer zoom 2,
where the stored scale does equal `2^zoom`; and the resizeScreen equations at
(800, 1200). -/
theorem C4_scale_zoom_witness :
    (v0.zoomBy 1).m_zoom = v0.m_zoom + 1 ∧
    (v0.zoomBy 1).m_scale = (2 : ℝ) ^ ((v0.zoomBy 1).m_zoom) ∧
    (v0.resizeScreen 800 1200).m_zoom = v0.m_zoom := by
  have h := C4_scale_zoom_amended v0 1 800 1200
  refine ⟨h.1, h.2.2.1 2 (by norm_num [v0]), h.2.2.2.1⟩

/-- C5 counterexample: at zoom 12 the budget `120 - 10*(int)zoom` is 0, not
positive, so the claimed positive clamp does not exist in the code. -/
theorem C5_counterexample :
    maxIterations 12 = 0 ∧ ¬ 0 < maxIterations 12 := by
  have h : truncR (12 : ℝ) = 12 := by
    have : ((12 : ℤ) : ℝ) = (12 : ℝ) := by norm_num
    rw [← this, truncR_intCast]
  unfold maxIterations
  rw [h]
  norm_num

/-- C5 (amended): the budget is `120 - 10 * trunc(zoom)` with no clamp; for
nonnegative zoom the truncation agrees with the claimed floor, and the
budget is positive exactly when `trunc(zoom) ≤ 11`. -/
theorem C5_maxIterations_amended (z : ℝ) :
    (0 ≤ z → maxIterations z = 120 - 10 * ⌊z⌋) ∧
    (0 < maxIterations z ↔ truncR z ≤ 11) := by
  constructor
  · intro hz
    unfold maxIterations truncR
    rw [if_neg (not_lt.mpr hz)]
  · unfold maxIterations
    omega

/-- C5 witness: the amended theorem at zoom 1 gives the budget 110, which is
positive. -/
theorem C5_maxIterations_witness :
    maxIterations 1 = 120 - 10 * ⌊(1 : ℝ)⌋ ∧ (0 < maxIterations 1 ↔ truncR 1 ≤ 11) := by
  have h := C5_maxIterations_amended 1
  exact ⟨h.1 (by norm_num), h.2⟩

/-- C10: when the truncated zoom is at least 12 the budget is non-positive,
the loop body never runs (the fuel is zero), and the evaluator returns 1.0
(rendered as black) for every input point. -/
theorem C10_nonpositive_budget (v : View) (h12 : 12 ≤ truncR v.m_zoom) :
    maxIterations v.getZoom ≤ 0 ∧ ∀ z0 : ℝ × ℝ, mandelbrot v z0 = 1 := by
  have hb : maxIterations v.getZoom ≤ 0 := by
    unfold maxIterations View.getZoom
    omega
  refine ⟨hb, fun z0 => ?_⟩
  unfold mandelbrot
  rw [Int.toNat_of_nonpos hb]
  rfl

/-- C10 witness: the view zoomed to 12 renders every point (here (5, 5) and
(-2, 1/4)) as 1.0. -/
theorem C10_nonpositive_budget_witness :
    maxIterations (v0.zoomTo 12).getZoom ≤ 0 ∧
    mandelbrot (v0.zoomTo 12) (5, 5) = 1 ∧ mandelbrot (v0.zoomTo 12) (-2, 1 / 4) = 1 := by
  have hz : truncR (v0.zoomTo 12).m_zoom = 12 := by
    have h1 : (v0.zoomTo 12).m_zoom = ((12 : ℤ) : ℝ) := by
      simp [View.zoomTo, View.updateViewport]
    rw [h1, truncR_intCast]
  have h := C10_nonpositive_budget (v0.zoomTo 12) (by rw [hz])
  exact ⟨h.1, h.2 (5, 5), h.2 (-2, 1 / 4)⟩

/-- Range lemma for the evaluator loop: with a nonnegative counter that can
reach the budget in `fuel` steps, the result lies in [0, 1]. -/
theorem mandelLoop_mem_unit (z0 : ℝ × ℝ) (m : ℤ) :
    ∀ (fuel : ℕ) (z : ℝ × ℝ) (n : ℤ), 0 ≤ n → n + fuel ≤ m →
      0 ≤ mandelLoop z0 m z n fuel ∧ mandelLoop z0 m z n fuel ≤ 1 := by
  intro fuel
  induction fuel with
  | zero =>
    intro z n _ _
    exact ⟨zero_le_one, le_refl 1⟩
  | succ fuel ih =>
    intro z n hn hnm
    simp only [mandelLoop]
    split
    · have hmpos : (0 : ℤ) < m := by omega
      have hnm' : n < m := by omega
      have hmr : (0 : ℝ) < (m : ℝ) := by exact_mod_cast hmpos
      constructor
      · exact div_nonneg (by exact_mod_cast hn) (le_of_lt hmr)
      · rw [div_le_one hmr]
        exact_mod_cast le_of_lt hnm'
    · exact ih (mandelStep z0 z) (n + 1) (by omega) (by omega)

/-- The orbit steps by `mandelStep`. -/
theorem mandelOrbit_succ (z0 : ℝ × ℝ) (k : ℕ) :
    mandelOrbit z0 (k + 1) = mandelStep z0 (mandelOrbit z0 k) := by
  unfold mandelOrbit
  exact Function.iterate_succ_apply' (mandelStep z0) k z0

/-- If no orbit point from step `k+1` on escapes within the remaining fuel,
the loop exhausts its fuel and returns exactly 1. -/
theorem mandelLoop_no_escape (z0 : ℝ × ℝ) (m : ℤ) :
    ∀ (fuel : ℕ) (k : ℕ) (n : ℤ),
      (∀ j : ℕ, j < fuel →
        ¬ ((mandelOrbit z0 (k + j + 1)).1 * (mandelOrbit z0 (k + j + 1)).1 +
           (mandelOrbit z0 (k + j + 1)).2 * (mandelOrbit z0 (k + j + 1)).2 > 16)) →
      mandelLoop z0 m (mandelOrbit z0 k) n fuel = 1 := by
  intro fuel
  induction fuel with
  | zero => intro k n _; rfl
  | succ fuel ih =>
    intro k n hne
    simp only [mandelLoop]
    rw [← mandelOrbit_succ]
    rw [if_neg (by simpa using hne 0 (Nat.succ_pos fuel))]
    have := ih (k + 1) (n + 1) (fun j hj => by
      have h := hne (j + 1) (by omega)
      have harr : k + (j + 1) + 1 = k + 1 + j + 1 := by omega
      rwa [harr] at h)
    simpa [mandelOrbit_succ] using this

/-- The orbit of the origin is constantly the origin. -/
theorem mandelOrbit_zero (k : ℕ) : mandelOrbit (0, 0) k = ((0 : ℝ), (0 : ℝ)) := by
  induction k with
  | zero => rfl
  | succ k ih =>
    rw [mandelOrbit_succ, ih]
    unfold mandelStep
    norm_num

/-- C7: the evaluator always returns a value in [0, 1]; if the orbit never
exceeds the escape threshold `|z|^2 > 16` within the iteration budget it
returns exactly 1.0; and for `z0 = 0` it returns 1.0 (for every budget, in
particular every positive one). -/
theorem C7_escape_contract (v : View) (z0 : ℝ × ℝ) :
    (0 ≤ mandelbrot v z0 ∧ mandelbrot v z0 ≤ 1) ∧
    ((∀ j : ℕ, j < (maxIterations v.getZoom).toNat →
        ¬ ((mandelOrbit z0 (j + 1)).1 * (mandelOrbit z0 (j + 1)).1 +
           (mandelOrbit z0 (j + 1)).2 * (mandelOrbit z0 (j + 1)).2 > 16)) →
      mandelbrot v z0 = 1) ∧
    mandelbrot v (0, 0) = 1 := by
  refine ⟨?_, fun hne => ?_, ?_⟩
  · unfold mandelbrot
    rcases le_or_lt 0 (maxIterations v.getZoom) with hm | hm
    · exact mandelLoop_mem_unit z0 (maxIterations v.getZoom) _ z0 0 le_rfl
        (by rw [Int.toNat_of_nonneg hm]; omega)
    · rw [Int.toNat_of_nonpos (le_of_lt hm)]
      exact ⟨zero_le_one, le_refl 1⟩
  · unfold mandelbrot
    have h0 : mandelOrbit z0 0 = z0 := rfl
    rw [← h0]
    exact mandelLoop_no_escape z0 (maxIterations v.getZoom) _ 0 0
      (fun j hj => by simpa using hne j hj)
  · unfold mandelbrot
    have h0 : mandelOrbit ((0 : ℝ), (0 : ℝ)) 0 = ((0 : ℝ), (0 : ℝ)) := rfl
    rw [← h0]
    refine mandelLoop_no_escape (0, 0) (maxIterations v.getZoom) _ 0 0 (fun j _ => ?_)
    rw [mandelOrbit_zero]
    norm_num

/-- C7 witness: the contract applied at `v0` (budget 110) and the origin:
the origin's orbit never escapes and the evaluator returns exactly 1. -/
theorem C7_escape_contract_witness :
    (0 ≤ mandelbrot v0 ((0 : ℝ), (0 : ℝ)) ∧ mandelbrot v0 ((0 : ℝ), (0 : ℝ)) ≤ 1) ∧
    mandelbrot v0 ((0 : ℝ), (0 : ℝ)) = 1 := by
  have h := C7_escape_contract v0 ((0 : ℝ), (0 : ℝ))
  refine ⟨h.1, h.2.1 (fun j _ => ?_)⟩
  rw [mandelOrbit_zero]
  norm_num

/-- C8: with an active zoom box and distinct start/end points, the computed
box dimensions satisfy `|w| / |h| = aspectRatio` exactly (the float claim's
"within tolerance" is exact in ideal arithmetic), the shape size is
`(|w|, |h|)`, and each dimension keeps the sign of its drag direction
whenever that direction is nonzero. -/
theorem C8_zoombox_aspect (v : View) (x y : ℤ)
    (hshown : v.m_zoomBoxIsShown = true) (har : 0 < v.m_aspectRatio)
    (hne : (x, y) ≠ v.m_zoomBoxStartCorner) :
    (v.zoomBoxContinue x y).m_zoomBoxShapeSize =
      (|(v.zoomBoxDims x y).1|, |(v.zoomBoxDims x y).2|) ∧
    |(v.zoomBoxDims x y).1| / |(v.zoomBoxDims x y).2| = v.m_aspectRatio ∧
    (v.m_zoomBoxStartCorner.1 < x → 0 < (v.zoomBoxDims x y).1) ∧
    (x < v.m_zoomBoxStartCorner.1 → (v.zoomBoxDims x y).1 < 0) ∧
    (v.m_zoomBoxStartCorner.2 < y → 0 < (v.zoomBoxDims x y).2) ∧
    (y < v.m_zoomBoxStartCorner.2 → (v.zoomBoxDims x y).2 < 0) := by
  have hstart : x ≠ v.m_zoomBoxStartCorner.1 ∨ y ≠ v.m_zoomBoxStartCorner.2 := by
    by_contra hc
    push_neg at hc
    exact hne (Prod.ext hc.1 hc.2)
  refine ⟨by simp [View.zoomBoxContinue, hshown], ?_⟩
  simp only [View.zoomBoxDims]
  set w : ℝ := ((x - v.m_zoomBoxStartCorner.1 : ℤ) : ℝ) with hw_def
  set h : ℝ := ((y - v.m_zoomBoxStartCorner.2 : ℤ) : ℝ) with hh_def
  have hwlt : v.m_zoomBoxStartCorner.1 < x → 0 < w := by
    intro hlt
    rw [hw_def]
    exact_mod_cast Int.sub_pos.mpr hlt
  have hwgt : x < v.m_zoomBoxStartCorner.1 → w < 0 := by
    intro hlt
    rw [hw_def]
    exact_mod_cast sub_neg.mpr hlt
  have hhlt : v.m_zoomBoxStartCorner.2 < y → 0 < h := by
    intro hlt
    rw [hh_def]
    exact_mod_cast Int.sub_pos.mpr hlt
  have hhgt : y < v.m_zoomBoxStartCorner.2 → h < 0 := by
    intro hlt
    rw [hh_def]
    exact_mod_cast sub_neg.mpr hlt
  split
  · rename_i hcond
    have hhpos : 0 < |h| := by nlinarith [abs_nonneg w, abs_nonneg h]
    have hprodpos : 0 < |h| * v.m_aspectRatio := mul_pos hhpos har
    have habs1 : ∀ s : ℝ, |s| = 1 → |(|h| * v.m_aspectRatio * s)| = |h| * v.m_aspectRatio := by
      intro s hs
      rw [abs_mul, hs, mul_one, abs_of_pos hprodpos]
    refine ⟨?_, ?_, ?_, ?_, ?_⟩
    · have hsig : |(if w < 0 then (-1 : ℝ) else 1)| = 1 := by
        split <;> norm_num
      simp only [habs1 _ hsig]
      rw [mul_comm (|h|) v.m_aspectRatio, mul_div_assoc, div_self (ne_of_gt hhpos), mul_one]
    · intro hlt
      have : ¬ w < 0 := not_lt.mpr (le_of_lt (hwlt hlt))
      rw [if_neg this]
      simpa using hprodpos
    · intro hlt
      rw [if_pos (hwgt hlt)]
      simpa using neg_neg_iff_pos.mpr hprodpos
    · intro hlt
      exact hhlt hlt
    · intro hlt
      exact hhgt hlt
  · rename_i hcond
    push_neg at hcond
    have hwne : w ≠ 0 := by
      intro hw0
      have hh0 : h = 0 := by
        rw [hw0] at hcond
        simp at hcond
        have h1 : |h| ≤ 0 := by nlinarith [abs_nonneg h]
        exact abs_eq_zero.mp (le_antisymm h1 (abs_nonneg h))
      have hx0 : x = v.m_zoomBoxStartCorner.1 := by
        have : ((x - v.m_zoomBoxStartCorner.1 : ℤ) : ℝ) = 0 := hw0
        have := Int.cast_eq_zero.mp this
        omega
      have hy0 : y = v.m_zoomBoxStartCorner.2 := by
        have : ((y - v.m_zoomBoxStartCorner.2 : ℤ) : ℝ) = 0 := hh0
        have := Int.cast_eq_zero.mp this
        omega
      rcases hstart with hs | hs
      · exact hs hx0
      · exact hs hy0
    have hwpos : 0 < |w| := abs_pos.mpr hwne
    have hdivpos : 0 < |w| / v.m_aspectRatio := div_pos hwpos har
    have habs2 : ∀ s : ℝ, |s| = 1 → |(|w| / v.m_aspectRatio * s)| = |w| / v.m_aspectRatio := by
      intro s hs
      rw [abs_mul, hs, mul_one, abs_of_pos hdivpos]
    refine ⟨?_, ?_, ?_, ?_, ?_⟩
    · have hsig : |(if h < 0 then (-1 : ℝ) else 1)| = 1 := by
        split <;> norm_num
      simp only [habs2 _ hsig]
      rw [div_div_eq_mul_div, mul_comm, mul_div_assoc, div_self (ne_of_gt hwpos), mul_one]
    · intro hlt
      exact hwlt hlt
    · intro hlt
      exact hwgt hlt
    · intro hlt
      have : ¬ h < 0 := not_lt.mpr (le_of_lt (hhlt hlt))
      rw [if_neg this]
      simpa using hdivpos
    · intro hlt
      rw [if_pos (hhgt hlt)]
      simpa using neg_neg_iff_pos.mpr hdivpos

/-- C8 witness: the aspect-ratio and direction facts at the concrete active
box of `v0box` (start (100, 100)) dragged to (110, 120). -/
theorem C8_zoombox_aspect_witness :
    |(v0box.zoomBoxDims 110 120).1| / |(v0box.zoomBoxDims 110 120).2| =
      v0box.m_aspectRatio ∧
    0 < (v0box.zoomBoxDims 110 120).1 ∧ 0 < (v0box.zoomBoxDims 110 120).2 := by
  have h := C8_zoombox_aspect v0box 110 120 (by simp [v0box, v0, View.zoomBoxBegin])
    (by norm_num [v0box, v0, View.zoomBoxBegin]) (by simp [v0box, v0, View.zoomBoxBegin])
  refine ⟨h.2.1, h.2.2.1 ?_, h.2.2.2.2.1 ?_⟩
  · show (v0box.m_zoomBoxStartCorner.1 : ℤ) < 110
    norm_num [v0box, v0, View.zoomBoxBegin]
  · show (v0box.m_zoomBoxStartCorner.2 : ℤ) < 120
    norm_num [v0box, v0, View.zoomBoxBegin]

/-- C9: ending an active zoom box at its own start corner produces a
zero-size box: the centre, scale, zoom, viewport and dirty flag are all left
untouched (the degenerate box is a silent no-op), and only the box itself is
deactivated. -/
theorem C9_degenerate_zoombox (v : View) (hshown : v.m_zoomBoxIsShown = true) :
    ((v.zoomBoxEnd v.m_zoomBoxStartCorner.1 v.m_zoomBoxStartCorner.2).m_centre = v.m_centre) ∧
    ((v.zoomBoxEnd v.m_zoomBoxStartCorner.1 v.m_zoomBoxStartCorner.2).m_scale = v.m_scale) ∧
    ((v.zoomBoxEnd v.m_zoomBoxStartCorner.1 v.m_zoomBoxStartCorner.2).m_zoom = v.m_zoom) ∧
    ((v.zoomBoxEnd v.m_zoomBoxStartCorner.1 v.m_zoomBoxStartCorner.2).m_rect = v.m_rect) ∧
    ((v.zoomBoxEnd v.m_zoomBoxStartCorner.1 v.m_zoomBoxStartCorner.2).m_dirty = v.m_dirty) ∧
    ((v.zoomBoxEnd v.m_zoomBoxStartCorner.1 v.m_zoomBoxStartCorner.2).m_zoomBoxIsShown = false) := by
  have hdims : v.zoomBoxDims v.m_zoomBoxStartCorner.1 v.m_zoomBoxStartCorner.2 =
      ((0 : ℝ), (0 : ℝ)) := by
    unfold View.zoomBoxDims
    simp
  have hcont : v.zoomBoxContinue v.m_zoomBoxStartCorner.1 v.m_zoomBoxStartCorner.2 =
      { v with m_zoomBoxEndCorner := v.m_zoomBoxStartCorner
             , m_zoomBoxShapePos := ((v.m_zoomBoxStartCorner.1 : ℝ), (v.m_zoomBoxStartCorner.2 : ℝ))
             , m_zoomBoxShapeSize := (0, 0) } := by
    unfold View.zoomBoxContinue
    rw [if_pos hshown, hdims]
    have ht : truncR ((0 : ℝ)) = 0 := by
      rw [show ((0 : ℝ)) = (((0 : ℤ)) : ℝ) by norm_num, truncR_intCast]
    simp [ht]
  unfold View.zoomBoxEnd
  rw [hcont]
  simp

/-- C9 witness: ending the active box of `v0box` at its start corner
(100, 100) leaves the centre and scale of `v0box` unchanged. -/
theorem C9_degenerate_zoombox_witness :
    (v0box.zoomBoxEnd v0box.m_zoomBoxStartCorner.1
        v0box.m_zoomBoxStartCorner.2).m_centre = v0box.m_centre ∧
    (v0box.zoomBoxEnd v0box.m_zoomBoxStartCorner.1
        v0box.m_zoomBoxStartCorner.2).m_scale = v0box.m_scale ∧
    (v0box.zoomBoxEnd v0box.m_zoomBoxStartCorner.1
        v0box.m_zoomBoxStartCorner.2).m_zoomBoxIsShown = false := by
  have h := C9_degenerate_zoombox v0box (by simp [v0box, v0, View.zoomBoxBegin])
  exact ⟨h.1, h.2.1, h.2.2.2.2.2⟩

/-- The four bytes `writePixel` stores at its own pixel slot. -/
theorem writePixel_lookup (v : View) (W x y : ℕ) (buf : ℕ → ℕ) :
    (writePixel v W x y buf) (4 * (y * W + x)) = (renderColor v x y).r ∧
    (writePixel v W x y buf) (4 * (y * W + x) + 1) = (renderColor v x y).g ∧
    (writePixel v W x y buf) (4 * (y * W + x) + 2) = (renderColor v x y).b ∧
    (writePixel v W x y buf) (4 * (y * W + x) + 3) = 0xFF := by
  unfold writePixel
  refine ⟨?_, ?_, ?_, ?_⟩
  · rw [Function.update_noteq (by omega), Function.update_noteq (by omega),
      Function.update_noteq (by omega), Function.update_same]
  · rw [Function.update_noteq (by omega), Function.update_noteq (by omega),
      Function.update_same]
  · rw [Function.update_noteq (by omega), Function.update_same]
  · rw [Function.update_same]

/-- `writePixel` leaves every byte outside its own pixel slot unchanged. -/
theorem writePixel_untouched (v : View) (W x y : ℕ) (buf : ℕ → ℕ) (i : ℕ)
    (h : ∀ k : ℕ, k < 4 → i ≠ 4 * (y * W + x) + k) :
    (writePixel v W x y buf) i = buf i := by
  unfold writePixel
  rw [Function.update_noteq (by have := h 3 (by norm_num); omega),
    Function.update_noteq (by have := h 2 (by norm_num); omega),
    Function.update_noteq (by have := h 1 (by norm_num); omega),
    Function.update_noteq (by have := h 0 (by norm_num); omega)]

/-- The bytes `writePixel` stores do not depend on the incoming buffer. -/
theorem writePixel_value_indep (v : View) (W x y : ℕ) (b1 b2 : ℕ → ℕ) (k : ℕ)
    (hk : k < 4) :
    (writePixel v W x y b1) (4 * (y * W + x) + k) =
    (writePixel v W x y b2) (4 * (y * W + x) + k) := by
  interval_cases k
  · exact (writePixel_lookup v W x y b1).1.trans (writePixel_lookup v W x y b2).1.symm
  · exact (writePixel_lookup v W x y b1).2.1.trans (writePixel_lookup v W x y b2).2.1.symm
  · exact (writePixel_lookup v W x y b1).2.2.1.trans (writePixel_lookup v W x y b2).2.2.1.symm
  · exact (writePixel_lookup v W x y b1).2.2.2.trans (writePixel_lookup v W x y b2).2.2.2.symm

/-- Byte indices of distinct pixels (both with x inside the row stride) are
disjoint. -/
theorem pixIndex_ne {W x x' y y' k k' : ℕ} (hx : x < W) (hx' : x' < W)
    (hk : k < 4) (hk' : k' < 4) (hne : x ≠ x' ∨ y ≠ y') :
    4 * (y * W + x) + k ≠ 4 * (y' * W + x') + k' := by
  intro heq
  have hcell : y * W + x = y' * W + x' := by
    have h1 : ∀ a b : ℕ, 4 * (a + x) + k = 4 * (b + x') + k' → a + x = b + x' := by
      intro a b hab
      omega
    exact h1 (y * W) (y' * W) heq
  have hxx : x = x' := by
    have h1 : (y * W + x) % W = x := by
      rw [Nat.mul_comm y W, Nat.mul_add_mod, Nat.mod_eq_of_lt hx]
    have h2 : (y' * W + x') % W = x' := by
      rw [Nat.mul_comm y' W, Nat.mul_add_mod, Nat.mod_eq_of_lt hx']
    rw [← h1, ← h2, hcell]
  have hyy : y = y' := by
    have hW : 0 < W := lt_of_le_of_lt (Nat.zero_le x) hx
    have h2 : y * W = y' * W := by omega
    exact Nat.eq_of_mul_eq_mul_right hW h2
  rcases hne with h | h
  · exact h hxx
  · exact h hyy

/-- A row fold writes, at the slot of a pixel `x` already processed, exactly
what `writePixel` writes there. -/
theorem rowFoldl_lookup (v : View) (W y : ℕ) :
    ∀ (n : ℕ) (buf : ℕ → ℕ) (x k : ℕ), x < n → x < W → k < 4 →
      ((List.range n).foldl (fun b x' => writePixel v W x' y b) buf) (4 * (y * W + x) + k)
        = (writePixel v W x y buf) (4 * (y * W + x) + k) := by
  intro n
  induction n with
  | zero => intro buf x k hxn _ _; omega
  | succ n ih =>
    intro buf x k hxn hxW hk
    rw [List.range_succ, List.foldl_append]
    simp only [List.foldl_cons, List.foldl_nil]
    rcases Nat.lt_or_ge x n with hlt | hge
    · have hneq : ∀ k' : ℕ, k' < 4 → 4 * (y * W + x) + k ≠ 4 * (y * W + n) + k' := by
        intro k' hk'
        have hgen : ∀ a : ℕ, 4 * (a + x) + k ≠ 4 * (a + n) + k' := by
          intro a
          omega
        exact hgen (y * W)
      rw [writePixel_untouched v W n y _ _ hneq]
      exact ih buf x k hlt hxW hk
    · have hxn' : x = n := by omega
      subst hxn'
      exact writePixel_value_indep v W x y _ buf k hk

/-- A row fold leaves bytes outside its row slots unchanged. -/
theorem rowFoldl_untouched (v : View) (W y : ℕ) :
    ∀ (n : ℕ) (buf : ℕ → ℕ) (i : ℕ),
      (∀ x' k : ℕ, x' < n → k < 4 → i ≠ 4 * (y * W + x') + k) →
      ((List.range n).foldl (fun b x' => writePixel v W x' y b) buf) i = buf i := by
  intro n
  induction n with
  | zero => intro buf i _; rfl
  | succ n ih =>
    intro buf i h
    rw [List.range_succ, List.foldl_append]
    simp only [List.foldl_cons, List.foldl_nil]
    rw [writePixel_untouched v W n y _ _ (fun k hk => h n k (Nat.lt_succ_self n) hk)]
    exact ih buf i (fun x' k hx' hk => h x' k (Nat.lt_succ_of_lt hx') hk)

/-- The full render fold writes, at the slot of any already-rendered pixel,
exactly what `writePixel` writes there. -/
theorem renderFoldl_lookup (v : View) (W : ℕ) :
    ∀ (m : ℕ) (buf : ℕ → ℕ) (x y k : ℕ), y < m → x < W → k < 4 →
      ((List.range m).foldl (fun b y' => renderRow v W y' b) buf) (4 * (y * W + x) + k)
        = (writePixel v W x y buf) (4 * (y * W + x) + k) := by
  intro m
  induction m with
  | zero => intro buf x y k hym _ _; omega
  | succ m ih =>
    intro buf x y k hym hxW hk
    rw [List.range_succ, List.foldl_append]
    simp only [List.foldl_cons, List.foldl_nil]
    rcases Nat.lt_or_ge y m with hlt | hge
    · rw [show renderRow v W m ((List.range m).foldl (fun b y' => renderRow v W y' b) buf) =
          (List.range W).foldl (fun b x' => writePixel v W x' m b)
            ((List.range m).foldl (fun b y' => renderRow v W y' b) buf) from rfl]
      rw [rowFoldl_untouched v W m W _ _
        (fun x' k' hx' hk' => pixIndex_ne hxW hx' hk hk' (Or.inr (by omega)))]
      exact ih buf x y k hlt hxW hk
    · have hym' : y = m := by omega
      rw [hym']
      rw [show renderRow v W m ((List.range m).foldl (fun b y' => renderRow v W y' b) buf) =
          (List.range W).foldl (fun b x' => writePixel v W x' m b)
            ((List.range m).foldl (fun b y' => renderRow v W y' b) buf) from rfl]
      rw [rowFoldl_lookup v W m W _ x k hxW hxW hk]
      exact writePixel_value_indep v W x m _ buf k hk

/-- The evaluator result always lies in [0, 1] (helper shared by the render
and evaluator claims). -/
theorem mandelbrot_mem_unit (v : View) (z0 : ℝ × ℝ) :
    0 ≤ mandelbrot v z0 ∧ mandelbrot v z0 ≤ 1 := by
  unfold mandelbrot
  rcases le_or_lt 0 (maxIterations v.getZoom) with hm | hm
  · exact mandelLoop_mem_unit z0 (maxIterations v.getZoom) _ z0 0 le_rfl
      (by rw [Int.toNat_of_nonneg hm]; omega)
  · rw [Int.toNat_of_nonpos (le_of_lt hm)]
    exact ⟨zero_le_one, le_refl 1⟩

/-- The colour the code stores (`if m < 1 then hueToRGB (360 m) else black`)
is exactly the spec's colour (`hueRamp(360 m)` with `m = 1` as black),
because `m ≤ 1` always. -/
theorem renderColor_eq_spec (v : View) (x y : ℤ) :
    renderColor v x y = specPixelColor v x y := by
  unfold renderColor specPixelColor
  have hle := (mandelbrot_mem_unit v (v.complexAtPixel x y)).2
  by_cases h1 : mandelbrot v (v.complexAtPixel x y) = 1
  · rw [if_neg (by rw [h1]; exact lt_irrefl 1), if_pos h1]
  · rw [if_pos (lt_of_le_of_ne hle h1), if_neg h1]

/-- C6: a completed (uncancelled) render pass stores, at the four bytes of
every in-range pixel `(x, y)` (base offset `4 * (y * width + x)`), exactly
the spec colour `hueRamp(360 * escape(complexAtPixel(x, y)))` — with an
escape result of exactly 1.0 stored as black — and the alpha byte `0xFF`. -/
theorem C6_render_contract (v : View) (W H : ℕ) (buf : ℕ → ℕ) (x y : ℕ)
    (hx : x < W) (hy : y < H) :
    (render v W H buf) (4 * (y * W + x)) = (specPixelColor v x y).r ∧
    (render v W H buf) (4 * (y * W + x) + 1) = (specPixelColor v x y).g ∧
    (render v W H buf) (4 * (y * W + x) + 2) = (specPixelColor v x y).b ∧
    (render v W H buf) (4 * (y * W + x) + 3) = 0xFF := by
  have h0 := renderFoldl_lookup v W H buf x y 0 hy hx (by norm_num)
  have h1 := renderFoldl_lookup v W H buf x y 1 hy hx (by norm_num)
  have h2 := renderFoldl_lookup v W H buf x y 2 hy hx (by norm_num)
  have h3 := renderFoldl_lookup v W H buf x y 3 hy hx (by norm_num)
  have hlk := writePixel_lookup v W x y buf
  have hcol := renderColor_eq_spec v x y
  unfold render
  refine ⟨?_, ?_, ?_, ?_⟩
  · have := h0.trans ((by rw [show 4 * (y * W + x) + 0 = 4 * (y * W + x) by omega]; exact hlk.1) :
      (writePixel v W x y buf) (4 * (y * W + x) + 0) = (renderColor v x y).r)
    rw [show 4 * (y * W + x) = 4 * (y * W + x) + 0 by omega, this, hcol]
  · rw [h1, hlk.2.1, hcol]
  · rw [h2, hlk.2.2.1, hcol]
  · rw [h3, hlk.2.2.2]

/-- C6 witness: the contract applied to a 1x1 render over `v0` with an
all-zero starting buffer. -/
theorem C6_render_contract_witness :
    (render v0 1 1 (fun _ => 0)) 0 = (specPixelColor v0 0 0).r ∧
    (render v0 1 1 (fun _ => 0)) 3 = 0xFF := by
  have h := C6_render_contract v0 1 1 (fun _ => 0) 0 0 (by norm_num) (by norm_num)
  constructor
  · have := h.1
    simpa using this
  · have := h.2.2.2
    simpa using this
